import Mathlib

/-!
Verification of the core algorithms of the wikipedia principal-eigenvector
notebook: redirect resolution by transitive closure, adjacency-matrix
construction from a link stream, and damped power iteration.

The Python dictionaries are embedded as association lists (key order =
insertion order, as in the source's dicts), NumPy/SciPy float arrays as
lists of rationals (exact arithmetic in place of float32; "approximately"
statements of the spec become exact equalities here), and the raw text
stream as a list of token lists (one list of whitespace tokens per line,
the result of Python's `line.split()`).
-/

namespace WikipediaPrincipal

section AssocList

variable {α : Type} {β : Type} [DecidableEq α]

/-- Association-list lookup, the embedding of Python's `d.get(k)` /
`d[k]`: the value at the first matching key, if any. -/
def lookupA : List (α × β) → α → Option β
  | [], _ => none
  | (a, b) :: t, k => if a = k then some b else lookupA t k

/-- Embedding of Python's `d[k] = v` for an existing key: replace the
value at key `k` in place, keeping the key order. -/
def setA (m : List (α × β)) (k : α) (v : β) : List (α × β) :=
  m.map (fun p => if p.1 = k then (k, v) else p)

/-- Embedding of Python's `d[k] = v`: update in place if the key exists,
else append (insertion order, as in a Python dict). -/
def upsert (m : List (α × β)) (k : α) (v : β) : List (α × β) :=
  if (lookupA m k).isSome then setA m k v else m ++ [(k, v)]

theorem setA_cons (a : α) (b : β) (t : List (α × β)) (k : α) (v : β) :
    setA ((a, b) :: t) k v = (if a = k then (k, v) else (a, b)) :: setA t k v := by
  by_cases h : a = k <;> simp [setA, h]

theorem lookupA_eq_none_iff (m : List (α × β)) (k : α) :
    lookupA m k = none ↔ k ∉ m.map Prod.fst := by
  induction m with
  | nil => simp [lookupA]
  | cons p t ih =>
    obtain ⟨a, b⟩ := p
    simp only [lookupA, List.map_cons, List.mem_cons]
    by_cases h : a = k
    · subst h; simp
    · simp [h, ih, Ne.symm h]

theorem exists_lookupA_of_mem_keys {m : List (α × β)} {k : α}
    (h : k ∈ m.map Prod.fst) : ∃ v, lookupA m k = some v := by
  cases hl : lookupA m k with
  | none => exact absurd h ((lookupA_eq_none_iff m k).mp hl)
  | some v => exact ⟨v, rfl⟩

theorem lookupA_mem {m : List (α × β)} {k : α} {v : β}
    (h : lookupA m k = some v) : (k, v) ∈ m := by
  induction m with
  | nil => simp [lookupA] at h
  | cons p t ih =>
    obtain ⟨a, b⟩ := p
    by_cases hak : a = k
    · subst hak
      simp [lookupA] at h
      simp [h]
    · simp [lookupA, hak] at h
      exact List.mem_cons_of_mem _ (ih h)

theorem lookupA_mem_values {m : List (α × β)} {k : α} {v : β}
    (h : lookupA m k = some v) : v ∈ m.map Prod.snd := by
  exact List.mem_map.mpr ⟨(k, v), lookupA_mem h, rfl⟩

theorem keys_setA (m : List (α × β)) (k : α) (v : β) :
    (setA m k v).map Prod.fst = m.map Prod.fst := by
  induction m with
  | nil => rfl
  | cons p t ih =>
    obtain ⟨a, b⟩ := p
    by_cases h : a = k <;> simp [setA, h] at ih ⊢ <;> exact ih

theorem length_setA (m : List (α × β)) (k : α) (v : β) :
    (setA m k v).length = m.length := by
  simp [setA]

theorem lookupA_setA_self {m : List (α × β)} {k : α} (v : β)
    (h : k ∈ m.map Prod.fst) : lookupA (setA m k v) k = some v := by
  induction m with
  | nil => simp at h
  | cons p t ih =>
    obtain ⟨a, b⟩ := p
    rw [setA_cons]
    by_cases hak : a = k
    · rw [if_pos hak]
      simp [lookupA]
    · rw [if_neg hak]
      simp only [List.map_cons, List.mem_cons] at h
      rcases h with h | h
      · exact absurd h.symm hak
      · simp only [lookupA]
        rw [if_neg hak]
        exact ih h

theorem lookupA_setA_other {m : List (α × β)} {k k' : α} (v : β)
    (h : k' ≠ k) : lookupA (setA m k v) k' = lookupA m k' := by
  induction m with
  | nil => rfl
  | cons p t ih =>
    obtain ⟨a, b⟩ := p
    rw [setA_cons]
    by_cases hak : a = k
    · subst hak
      rw [if_pos rfl]
      simp only [lookupA]
      rw [if_neg (fun hh => h hh.symm), if_neg (fun hh => h hh.symm), ih]
    · rw [if_neg hak]
      simp only [lookupA]
      by_cases hak' : a = k'
      · rw [if_pos hak', if_pos hak']
      · rw [if_neg hak', if_neg hak', ih]

theorem lookupA_append_left {m : List (α × β)} {k : α} {v : β}
    (h : lookupA m k = some v) (m' : List (α × β)) :
    lookupA (m ++ m') k = some v := by
  induction m with
  | nil => simp [lookupA] at h
  | cons p t ih =>
    obtain ⟨a, b⟩ := p
    by_cases hak : a = k <;> simp [lookupA, hak] at h ⊢
    · exact h
    · exact ih h

end AssocList

section RedirectClosure

variable {α : Type} [DecidableEq α]

/-- Iterated lookup in a redirect map: follow the map `n` hops from `a`,
returning `none` as soon as a name has no entry. -/
def iterOpt (m : List (α × α)) : Nat → α → Option α
  | 0, a => some a
  | n + 1, a =>
    match lookupA m a with
    | none => none
    | some b => iterOpt m n b

/-- b is reachable from a by following the redirect map zero or more hops. -/
def Reach (m : List (α × α)) (a b : α) : Prop := ∃ n, iterOpt m n a = some b

/-- b is reachable from a by following the redirect map at least one hop. -/
def Reach1 (m : List (α × α)) (a b : α) : Prop :=
  ∃ n, 0 < n ∧ iterOpt m n a = some b

/-- The redirect chains of the map contain no cycles: no name reaches
itself again after one or more hops. -/
def NoCycle (m : List (α × α)) : Prop := ∀ a, ¬ Reach1 m a a

theorem iterOpt_add (m : List (α × α)) (n₁ n₂ : Nat) (a : α) :
    iterOpt m (n₁ + n₂) a = (iterOpt m n₁ a).bind (fun b => iterOpt m n₂ b) := by
  induction n₁ generalizing a with
  | zero => simp [iterOpt]
  | succ n ih =>
    have : n + 1 + n₂ = (n + n₂) + 1 := by omega
    rw [this]
    cases h : lookupA m a with
    | none => simp [iterOpt, h]
    | some b => simp [iterOpt, h, ih]

theorem reach_trans_reach1 {m : List (α × α)} {a b c : α}
    (h₁ : Reach m a b) (h₂ : Reach1 m b c) : Reach1 m a c := by
  obtain ⟨n₁, hn₁⟩ := h₁
  obtain ⟨n₂, hp, hn₂⟩ := h₂
  exact ⟨n₁ + n₂, by omega, by rw [iterOpt_add, hn₁]; exact hn₂⟩

theorem reach1_trans {m : List (α × α)} {a b c : α}
    (h₁ : Reach1 m a b) (h₂ : Reach1 m b c) : Reach1 m a c :=
  reach_trans_reach1 ⟨h₁.choose, h₁.choose_spec.2⟩ h₂

theorem reach1_to_reach {m : List (α × α)} {a b : α}
    (h : Reach1 m a b) : Reach m a b := ⟨h.choose, h.choose_spec.2⟩

theorem reach1_of_lookupA {m : List (α × α)} {a b : α}
    (h : lookupA m a = some b) : Reach1 m a b :=
  ⟨1, Nat.one_pos, by simp [iterOpt, h]⟩

/-- Embedding of the `while True` chain walk of `get_redirects`: follow
the map from `target`, tracking visited names in `seen`, and stop with
the last name reached when the next hop is absent or already visited.
`fuel` bounds the number of iterations; `chain_walk_fuel_irrelevant`
shows the loop always breaks before the fuel used by `closeStep` runs
out, so the fuel is an embedding artifact, not a behavior change. -/
def chain_walk (m : List (α × α)) : Nat → List α → α → α
  | 0, _, target => target
  | fuel + 1, seen, target =>
    match lookupA m target with
    | none => target
    | some t => if t ∈ seen then target else chain_walk m fuel (t :: seen) t

/-- One step of the transitive-closure pass: close the chain starting at
`source` and store the result back into the map (`redirects[source] =
transitive_target`). -/
def closeStep (m : List (α × α)) (source : α) : List (α × α) :=
  match lookupA m source with
  | none => m
  | some target =>
      setA m source (chain_walk m ((m.map Prod.snd).length + 1) [source] target)

/-- The transitive-closure pass of `get_redirects`: for every key of the
map (in order), walk its chain and record the last target reached.
Later walks see the updates of earlier ones, exactly as in the source's
in-place mutation of the `redirects` dict. -/
def closeRedirects (m : List (α × α)) : List (α × α) :=
  (m.map Prod.fst).foldl closeStep m

/-- The walk's result is independent of the fuel once the fuel exceeds
the number of map values not yet visited: the visited-set guard stops
the walk within that many iterations for every map, cyclic or not. -/
theorem chain_walk_fuel_irrelevant (m : List (α × α)) :
    ∀ (f₁ f₂ : Nat) (seen : List α) (target : α),
      ((m.map Prod.snd).toFinset \ seen.toFinset).card < f₁ →
      ((m.map Prod.snd).toFinset \ seen.toFinset).card < f₂ →
      chain_walk m f₁ seen target = chain_walk m f₂ seen target := by
  intro f₁
  induction f₁ with
  | zero => intro f₂ seen target h₁ h₂; omega
  | succ f ih =>
    intro f₂ seen target h₁ h₂
    obtain ⟨f', rfl⟩ : ∃ f', f₂ = f' + 1 := ⟨f₂ - 1, by omega⟩
    cases hl : lookupA m target with
    | none => simp [chain_walk, hl]
    | some t =>
      by_cases hseen : t ∈ seen
      · simp [chain_walk, hl, hseen]
      · have htv : t ∈ (m.map Prod.snd).toFinset :=
          List.mem_toFinset.mpr (lookupA_mem_values hl)
        have hmem : t ∈ (m.map Prod.snd).toFinset \ seen.toFinset := by
          simp [htv, hseen]
        have hcard : ((m.map Prod.snd).toFinset \ (t :: seen).toFinset).card
            < ((m.map Prod.snd).toFinset \ seen.toFinset).card := by
          have : (m.map Prod.snd).toFinset \ (t :: seen).toFinset
              = ((m.map Prod.snd).toFinset \ seen.toFinset).erase t := by
            simp [List.toFinset_cons, Finset.sdiff_insert]
          rw [this]
          exact Finset.card_erase_lt_of_mem hmem
        simp only [chain_walk, hl, if_neg hseen]
        exact ih f' (t :: seen) t (by omega) (by omega)

/-- Invariant tying an intermediate state of the in-place closure pass
back to the original map: the keys are unchanged and every stored value
is reachable from its key along the original chain in at least one hop. -/
def ClosureInv (m₀ m' : List (α × α)) : Prop :=
  m'.map Prod.fst = m₀.map Prod.fst ∧
    ∀ k t, lookupA m' k = some t → Reach1 m₀ k t

theorem closureInv_refl (m₀ : List (α × α)) : ClosureInv m₀ m₀ :=
  ⟨rfl, fun _ _ h => reach1_of_lookupA h⟩

/-- On an acyclic original map, the chain walk over any intermediate
closure state ends at a name with no entry in the original map, and that
name is reachable from the walk's source along the original chain. -/
theorem chain_walk_spec {m₀ : List (α × α)} (hnc : NoCycle m₀)
    {m' : List (α × α)} (hinv : ClosureInv m₀ m') (source : α) :
    ∀ (fuel : Nat) (seen : List α) (target : α),
      ((m'.map Prod.snd).toFinset \ seen.toFinset).card < fuel →
      (∀ s ∈ seen, Reach m₀ s target) →
      Reach1 m₀ source target →
      lookupA m₀ (chain_walk m' fuel seen target) = none ∧
        Reach1 m₀ source (chain_walk m' fuel seen target) := by
  intro fuel
  induction fuel with
  | zero => intro seen target hf _ _; omega
  | succ f ih =>
    intro seen target hf hseen hsrc
    cases hl : lookupA m' target with
    | none =>
      refine ⟨?_, by simpa [chain_walk, hl] using hsrc⟩
      simp only [chain_walk, hl]
      rw [lookupA_eq_none_iff] at hl ⊢
      rwa [hinv.1] at hl
    | some t =>
      have htar : Reach1 m₀ target t := hinv.2 target t hl
      have hnot : t ∉ seen := by
        intro hmem
        exact hnc t (reach_trans_reach1 (hseen t hmem) htar)
      simp only [chain_walk, hl, if_neg hnot]
      have htv : t ∈ (m'.map Prod.snd).toFinset :=
        List.mem_toFinset.mpr (lookupA_mem_values hl)
      have hmem : t ∈ (m'.map Prod.snd).toFinset \ seen.toFinset := by
        simp [htv, hnot]
      have hcard : ((m'.map Prod.snd).toFinset \ (t :: seen).toFinset).card
          < ((m'.map Prod.snd).toFinset \ seen.toFinset).card := by
        have : (m'.map Prod.snd).toFinset \ (t :: seen).toFinset
            = ((m'.map Prod.snd).toFinset \ seen.toFinset).erase t := by
          simp [List.toFinset_cons, Finset.sdiff_insert]
        rw [this]
        exact Finset.card_erase_lt_of_mem hmem
      refine ih (t :: seen) t (by omega) ?_ (reach1_trans hsrc htar)
      intro s hs
      rcases List.mem_cons.mp hs with rfl | hs
      · exact ⟨0, rfl⟩
      · exact reach1_to_reach (reach_trans_reach1 (hseen s hs) htar)

/-- After the closure pass has processed key `k` its stored value is the
end of `k`'s chain: present in the closed map, absent from the original
one, and reachable from `k` along the original chain. -/
def ClosedAt (m₀ m' : List (α × α)) (k : α) : Prop :=
  ∃ t, lookupA m' k = some t ∧ lookupA m₀ t = none ∧ Reach1 m₀ k t

theorem closeStep_spec {m₀ m' : List (α × α)} (hnc : NoCycle m₀)
    (hinv : ClosureInv m₀ m') (s : α) :
    ClosureInv m₀ (closeStep m' s) ∧
      (s ∈ m₀.map Prod.fst → ClosedAt m₀ (closeStep m' s) s) ∧
      (∀ k, k ≠ s → lookupA (closeStep m' s) k = lookupA m' k) := by
  cases hl : lookupA m' s with
  | none =>
    refine ⟨by simpa [closeStep, hl] using hinv, ?_, by simp [closeStep, hl]⟩
    intro hk
    rw [lookupA_eq_none_iff, hinv.1] at hl
    exact absurd hk hl
  | some target =>
    have hsk : s ∈ m'.map Prod.fst := by
      by_contra hns
      rw [← lookupA_eq_none_iff] at hns
      simp [hns] at hl
    have hfuel : ((m'.map Prod.snd).toFinset \ ([s] : List α).toFinset).card
        < (m'.map Prod.snd).length + 1 := by
      calc ((m'.map Prod.snd).toFinset \ ([s] : List α).toFinset).card
          ≤ (m'.map Prod.snd).toFinset.card :=
            Finset.card_le_card Finset.sdiff_subset
        _ ≤ (m'.map Prod.snd).length := (m'.map Prod.snd).toFinset_card_le
        _ < (m'.map Prod.snd).length + 1 := Nat.lt_succ_self _
    have hsrc : Reach1 m₀ s target := hinv.2 s target hl
    obtain ⟨hterm, hreach⟩ := chain_walk_spec hnc hinv s
      ((m'.map Prod.snd).length + 1) [s] target hfuel
      (by intro x hx
          rcases List.mem_singleton.mp hx with rfl
          exact reach1_to_reach hsrc)
      hsrc
    set w := chain_walk m' ((m'.map Prod.snd).length + 1) [s] target with hw
    have hcs : closeStep m' s = setA m' s w := by
      rw [hw]
      simp only [closeStep, hl]
    rw [hcs]
    have hkeys : (setA m' s w).map Prod.fst = m₀.map Prod.fst := by
      rw [keys_setA, hinv.1]
    refine ⟨⟨hkeys, ?_⟩, ?_, ?_⟩
    · intro k t hkt
      by_cases hks : k = s
      · subst hks
        rw [lookupA_setA_self w hsk] at hkt
        obtain rfl : w = t := Option.some.inj hkt
        exact hreach
      · rw [lookupA_setA_other w hks] at hkt
        exact hinv.2 k t hkt
    · intro _
      exact ⟨w, lookupA_setA_self w hsk, hterm, hreach⟩
    · intro k hks
      exact lookupA_setA_other w hks

theorem foldl_closeStep_spec {m₀ : List (α × α)} (hnc : NoCycle m₀) :
    ∀ (ks : List α) (m' : List (α × α)), ClosureInv m₀ m' → ks.Nodup →
      ClosureInv m₀ (ks.foldl closeStep m') ∧
        ∀ k ∈ ks, k ∈ m₀.map Prod.fst → ClosedAt m₀ (ks.foldl closeStep m') k := by
  intro ks
  induction ks with
  | nil => intro m' hinv _; exact ⟨hinv, by simp⟩
  | cons s rest ih =>
    intro m' hinv hnd
    obtain ⟨hstep, hclosed, _⟩ := closeStep_spec hnc hinv s
    obtain ⟨hinv', hrest⟩ := ih (closeStep m' s) hstep (List.nodup_cons.mp hnd).2
    refine ⟨hinv', ?_⟩
    intro k hk hk₀
    rcases List.mem_cons.mp hk with rfl | hkrest
    · -- k = s: closed by this step, untouched by the rest (Nodup)
      obtain ⟨t, hlk, hterm, hr⟩ := hclosed hk₀
      refine ⟨t, ?_, hterm, hr⟩
      have hpreserve : ∀ (ks' : List α) (mm : List (α × α)), k ∉ ks' →
          lookupA mm k = some t → lookupA (ks'.foldl closeStep mm) k = some t := by
        intro ks'
        induction ks' with
        | nil => intro mm _ hmm; exact hmm
        | cons q qrest ihq =>
          intro mm hnot hmm
          have hkq : k ≠ q := fun h => hnot (h ▸ List.mem_cons_self q qrest)
          have : lookupA (closeStep mm q) k = lookupA mm k := by
            cases hql : lookupA mm q with
            | none => simp [closeStep, hql]
            | some tq => simp [closeStep, hql, lookupA_setA_other _ hkq]
          exact ihq (closeStep mm q) (fun hh => hnot (List.mem_cons_of_mem q hh))
            (this.trans hmm)
      exact hpreserve rest (closeStep m' k) (List.nodup_cons.mp hnd).1 hlk
    · exact hrest k hkrest hk₀

theorem keys_closeStep (m' : List (α × α)) (s : α) :
    (closeStep m' s).map Prod.fst = m'.map Prod.fst := by
  cases hl : lookupA m' s with
  | none => simp [closeStep, hl]
  | some t =>
    simp only [closeStep, hl]
    exact keys_setA m' s _

theorem keys_closeRedirects (m : List (α × α)) :
    (closeRedirects m).map Prod.fst = m.map Prod.fst := by
  have haux : ∀ (ks : List α) (m' : List (α × α)),
      (ks.foldl closeStep m').map Prod.fst = m'.map Prod.fst := by
    intro ks
    induction ks with
    | nil => intro m'; rfl
    | cons q qrest ih => intro m'; rw [List.foldl_cons, ih, keys_closeStep]
  exact haux _ m

theorem rank_bound {m : List (α × α)} {r : α → Nat}
    (hr : ∀ a b, lookupA m a = some b → r b < r a) :
    ∀ (n : Nat) (a b : α), iterOpt m n a = some b → r b + n ≤ r a := by
  intro n
  induction n with
  | zero =>
    intro a b h
    simp only [iterOpt] at h
    obtain rfl := Option.some.inj h
    omega
  | succ n ih =>
    intro a b h
    simp only [iterOpt] at h
    cases hl : lookupA m a with
    | none => rw [hl] at h; exact absurd h (by simp)
    | some c =>
      rw [hl] at h
      have h₁ := ih c b h
      have h₂ := hr a c hl
      omega

/-- A map admitting a strictly decreasing rank along its hops has no
redirect cycle. Used to discharge `NoCycle` on concrete acyclic maps. -/
theorem noCycle_of_rank (m : List (α × α)) (r : α → Nat)
    (hr : ∀ a b, lookupA m a = some b → r b < r a) : NoCycle m := by
  rintro a ⟨n, hn, hit⟩
  have := rank_bound hr n a a hit
  omega

end RedirectClosure

section Parsing

/-- Length of the fixed resource-namespace prefix stripped from URIs
(`len("http://dbpedia.org/resource/")`). -/
def DBPEDIA_RESOURCE_PREFIX_LEN : Nat := "http://dbpedia.org/resource/".length

/-- Embedding of `short_name`: the slice `[PREFIX_LEN + 1 : -1]` of the
URI token, removing the angle-bracket markers and the common prefix. -/
def short_name (nt_uri : String) : String :=
  (nt_uri.drop (DBPEDIA_RESOURCE_PREFIX_LEN + 1)).dropRight 1

/-- The parsing pass of `get_redirects`: each well-formed line (exactly
4 whitespace tokens) stores `short_name(subject) ↦ short_name(object)`
in the dict; malformed lines are skipped. A line is embedded as its list
of whitespace tokens (the result of `line.split()`). -/
def parseRedirects (lines : List (List String)) : List (String × String) :=
  lines.foldl
    (fun m split =>
      if split.length ≠ 4 then m
      else upsert m (short_name (split.getD 0 "")) (short_name (split.getD 2 "")))
    []

/-- Embedding of `get_redirects`: parse the redirect lines, then compute
the transitive closure of the resulting map in place. -/
def get_redirects (lines : List (List String)) : List (String × String) :=
  closeRedirects (parseRedirects lines)

end Parsing

/-- Claim C1: for every redirect map whose chains contain no cycles,
after the transitive-closure pass of `get_redirects`, looking up any key
of the closed map yields a target with no entry in the original
(pre-closure) map, and that target is the end of the key's original
redirect chain — every key maps to its final canonical target in one
lookup. -/
theorem C1_closure_reaches_terminal {α : Type} [DecidableEq α]
    (m : List (α × α)) (hnd : (m.map Prod.fst).Nodup) (hnc : NoCycle m) :
    ∀ k ∈ m.map Prod.fst, ∃ t, lookupA (closeRedirects m) k = some t ∧
      lookupA m t = none ∧ Reach1 m k t := by
  intro k hk
  obtain ⟨_, hclosed⟩ :=
    foldl_closeStep_spec hnc (m.map Prod.fst) m (closureInv_refl m) hnd
  exact hclosed k hk hk

/-- Witness for C1 on the concrete acyclic chain 0 ↦ 1 ↦ 2: key 0 is
closed to a target absent from the original map. -/
theorem C1_closure_reaches_terminal_witness :
    ∃ t, lookupA (closeRedirects [(0, 1), (1, 2)]) 0 = some t ∧
      lookupA [(0, 1), (1, 2)] t = none ∧ Reach1 [(0, 1), (1, 2)] 0 t :=
  C1_closure_reaches_terminal [(0, 1), (1, 2)] (by decide)
    (noCycle_of_rank _ (fun a => 2 - a) (by
      intro a b h
      have hm := lookupA_mem h
      simp only [List.mem_cons, List.not_mem_nil, or_false] at hm
      rcases hm with h1 | h1 <;>
        (injection h1 with ha hb; subst ha; subst hb; decide)))
    0 (by decide)

/-- Claim C2: for every finite redirect map, cyclic chains and
self-loops included, the per-key chain walk terminates — its result is
already fixed once the fuel exceeds the number of map values, because
the visited-set guard stops the walk at the first revisited target — and
the closure pass records a well-defined final target for every key. -/
theorem C2_closure_terminates {α : Type} [DecidableEq α] (m : List (α × α)) :
    (∀ (f₁ f₂ : Nat) (seen : List α) (target : α),
        (m.map Prod.snd).length < f₁ → (m.map Prod.snd).length < f₂ →
        chain_walk m f₁ seen target = chain_walk m f₂ seen target)
    ∧ ∀ k ∈ m.map Prod.fst, ∃ t, lookupA (closeRedirects m) k = some t := by
  constructor
  · intro f₁ f₂ seen target h₁ h₂
    have hb : ((m.map Prod.snd).toFinset \ seen.toFinset).card
        ≤ (m.map Prod.snd).length :=
      le_trans (Finset.card_le_card Finset.sdiff_subset)
        (m.map Prod.snd).toFinset_card_le
    exact chain_walk_fuel_irrelevant m f₁ f₂ seen target (by omega) (by omega)
  · intro k hk
    apply exists_lookupA_of_mem_keys
    rw [keys_closeRedirects]
    exact hk

/-- Witness for C2 on the concrete 3-cycle 0 ↦ 1 ↦ 2 ↦ 0: the walk from
key 0 gives the same answer for any sufficient fuel, and the closed map
still has an entry for key 0. -/
theorem C2_closure_terminates_witness :
    chain_walk [(0, 1), (1, 2), (2, 0)] 4 [0] 1
        = chain_walk [(0, 1), (1, 2), (2, 0)] 17 [0] 1
    ∧ ∃ t, lookupA (closeRedirects [(0, 1), (1, 2), (2, 0)]) 0 = some t :=
  ⟨(C2_closure_terminates [(0, 1), (1, 2), (2, 0)]).1 4 17 [0] 1
      (by decide) (by decide),
    (C2_closure_terminates [(0, 1), (1, 2), (2, 0)]).2 0 (by decide)⟩

section GraphBuilder

/-- Embedding of `index`: resolve the article name through the redirect
map (`redirects.get(k, k)`), then `index_map.setdefault(k,
len(index_map))` — return the existing dense id, or assign the next one.
Returns the updated map together with the id. -/
def index (redirects : List (String × String)) (index_map : List (String × Nat))
    (k : String) : List (String × Nat) × Nat :=
  match lookupA index_map ((lookupA redirects k).getD k) with
  | some i => (index_map, i)
  | none =>
      (index_map ++ [((lookupA redirects k).getD k, index_map.length)],
        index_map.length)

/-- The edge-ingestion loop of `get_adjacency_matrix`: for each
well-formed line (4 tokens) resolve subject and object to dense ids and
append the pair to `links`; skip malformed lines — which, as in the
source, also skips the limit check; after recording a pair, stop when
the optional limit is reached (`l >= limit - 1` on the 0-based line
counter `l`). Returns the final index map and the recorded pairs. -/
def ingest (redirects : List (String × String)) (limit : Option Nat) :
    List (List String) → Nat → List (String × Nat) → List (Nat × Nat) →
      List (String × Nat) × List (Nat × Nat)
  | [], _, index_map, links => (index_map, links)
  | split :: rest, l, index_map, links =>
    if split.length ≠ 4 then ingest redirects limit rest (l + 1) index_map links
    else
      let p1 := index redirects index_map (short_name (split.getD 0 ""))
      let p2 := index redirects p1.1 (short_name (split.getD 2 ""))
      match limit with
      | none => ingest redirects limit rest (l + 1) p2.1 (links ++ [(p1.2, p2.2)])
      | some lim =>
          if lim - 1 ≤ l then (p2.1, links ++ [(p1.2, p2.2)])
          else ingest redirects limit rest (l + 1) p2.1 (links ++ [(p1.2, p2.2)])

/-- Matrices are lists of rows of rationals (the dense value view of the
scipy sparse matrix; float32 is embedded as exact rational arithmetic). -/
abbrev Mat := List (List ℚ)

/-- The all-zero N×N matrix (`sparse.lil_matrix((N, N))`). -/
def zeroMat (nn : Nat) : Mat := List.replicate nn (List.replicate nn 0)

/-- Single-cell assignment `X[i, j] = v`. Out-of-range indices leave the
matrix unchanged, mirroring that the source never produces them. -/
def setEntry (M : Mat) (i j : Nat) (v : ℚ) : Mat :=
  M.set i ((M.getD i []).set j v)

/-- Read cell (i, j) of a matrix (0 outside the stored shape). -/
def entry (M : Mat) (i j : Nat) : ℚ := (M.getD i []).getD j 0

/-- The matrix-filling loop of `get_adjacency_matrix`: `X[i, j] = 1.0`
for every recorded pair, starting from the all-zero N×N matrix. -/
def buildMatrix (nn : Nat) (links : List (Nat × Nat)) : Mat :=
  links.foldl (fun M p => setEntry M p.1 p.2 1) (zeroMat nn)

/-- Embedding of `get_adjacency_matrix`: build the redirect map, ingest
the link stream, and fill the N×N adjacency matrix, N = |index_map|.
Returns (X, redirects, index_map) as the source does. -/
def get_adjacency_matrix (redirect_lines page_lines : List (List String))
    (limit : Option Nat) : Mat × List (String × String) × List (String × Nat) :=
  let redirects := get_redirects redirect_lines
  let r := ingest redirects limit page_lines 0 [] []
  (buildMatrix r.1.length r.2, redirects, r.1)

theorem index_spec (redirects : List (String × String))
    (index_map : List (String × Nat)) (k : String)
    (hinv : index_map.map Prod.snd = List.range index_map.length) :
    (index redirects index_map k).1.map Prod.snd
        = List.range (index redirects index_map k).1.length
    ∧ (index redirects index_map k).2 < (index redirects index_map k).1.length
    ∧ index_map.length ≤ (index redirects index_map k).1.length
    ∧ ∀ name v, lookupA index_map name = some v →
        lookupA (index redirects index_map k).1 name = some v := by
  unfold index
  cases hl : lookupA index_map ((lookupA redirects k).getD k) with
  | some i =>
    simp only
    refine ⟨hinv, ?_, le_refl _, fun name v hv => hv⟩
    have hmem : i ∈ index_map.map Prod.snd := lookupA_mem_values hl
    rw [hinv] at hmem
    exact List.mem_range.mp hmem
  | none =>
    simp only
    refine ⟨?_, ?_, ?_, ?_⟩
    · simp [hinv, List.range_succ]
    · simp
    · simp
    · intro name v hv
      exact lookupA_append_left hv _

theorem ingest_spec (redirects : List (String × String)) (limit : Option Nat) :
    ∀ (stream : List (List String)) (l : Nat) (index_map : List (String × Nat))
      (links : List (Nat × Nat)),
      index_map.map Prod.snd = List.range index_map.length →
      (∀ p ∈ links, p.1 < index_map.length ∧ p.2 < index_map.length) →
      ((ingest redirects limit stream l index_map links).1.map Prod.snd
          = List.range (ingest redirects limit stream l index_map links).1.length)
      ∧ index_map.length ≤ (ingest redirects limit stream l index_map links).1.length
      ∧ ∀ p ∈ (ingest redirects limit stream l index_map links).2,
          p.1 < (ingest redirects limit stream l index_map links).1.length ∧
            p.2 < (ingest redirects limit stream l index_map links).1.length := by
  intro stream
  induction stream with
  | nil => intro l im links hinv hb; exact ⟨hinv, le_refl _, hb⟩
  | cons split rest ih =>
    intro l im links hinv hb
    by_cases hmal : split.length ≠ 4
    · simpa only [ingest, if_pos hmal] using ih (l + 1) im links hinv hb
    · obtain ⟨h1inv, h1lt, h1le, _⟩ :=
        index_spec redirects im (short_name (split.getD 0 "")) hinv
      obtain ⟨h2inv, h2lt, h2le, _⟩ :=
        index_spec redirects (index redirects im (short_name (split.getD 0 ""))).1
          (short_name (split.getD 2 "")) h1inv
      set p1 := index redirects im (short_name (split.getD 0 "")) with hp1
      set p2 := index redirects p1.1 (short_name (split.getD 2 "")) with hp2
      have hb' : ∀ p ∈ links ++ [(p1.2, p2.2)],
          p.1 < p2.1.length ∧ p.2 < p2.1.length := by
        intro p hp
        rcases List.mem_append.mp hp with hp | hp
        · have := hb p hp
          omega
        · rcases List.mem_singleton.mp hp with rfl
          exact ⟨by simpa using lt_of_lt_of_le h1lt h2le, h2lt⟩
      cases limit with
      | none =>
        have hres := ih (l + 1) p2.1 (links ++ [(p1.2, p2.2)]) h2inv hb'
        refine ⟨?_, ?_, ?_⟩ <;>
          simp only [ingest, if_neg hmal] <;>
          [exact hres.1; exact le_trans (le_trans h1le h2le) hres.2.1; exact hres.2.2]
      | some lim =>
        by_cases hbrk : lim - 1 ≤ l
        · refine ⟨?_, ?_, ?_⟩ <;>
            simp only [ingest, if_neg hmal, if_pos hbrk] <;>
            [exact h2inv; exact le_trans h1le h2le; exact hb']
        · have hres := ih (l + 1) p2.1 (links ++ [(p1.2, p2.2)]) h2inv hb'
          refine ⟨?_, ?_, ?_⟩ <;>
            simp only [ingest, if_neg hmal, if_neg hbrk] <;>
            [exact hres.1; exact le_trans (le_trans h1le h2le) hres.2.1; exact hres.2.2]

end GraphBuilder

/-- Claim C10: the set of integer ids assigned by `index` is always
exactly {0, …, len(index_map)−1} — a new name gets id = current map
size, existing names keep their id — so during ingestion every recorded
(i, j) pair is within bounds of the final N = len(index_map), and hence
every later assignment into the N×N matrix is in bounds. -/
theorem C10_ids_are_dense_and_in_bounds (redirects : List (String × String)) :
    (∀ (index_map : List (String × Nat)) (k : String),
        index_map.map Prod.snd = List.range index_map.length →
        ((index redirects index_map k).1.map Prod.snd
            = List.range (index redirects index_map k).1.length
          ∧ (index redirects index_map k).2 < (index redirects index_map k).1.length
          ∧ ∀ name v, lookupA index_map name = some v →
              lookupA (index redirects index_map k).1 name = some v))
    ∧ ∀ (limit : Option Nat) (stream : List (List String)),
        ((ingest redirects limit stream 0 [] []).1.map Prod.snd
            = List.range (ingest redirects limit stream 0 [] []).1.length)
        ∧ ∀ p ∈ (ingest redirects limit stream 0 [] []).2,
            p.1 < (ingest redirects limit stream 0 [] []).1.length ∧
              p.2 < (ingest redirects limit stream 0 [] []).1.length := by
  constructor
  · intro index_map k hinv
    obtain ⟨h1, h2, _, h4⟩ := index_spec redirects index_map k hinv
    exact ⟨h1, h2, h4⟩
  · intro limit stream
    obtain ⟨h1, _, h3⟩ := ingest_spec redirects limit stream 0 [] [] (by simp) (by simp)
    exact ⟨h1, h3⟩

/-- Witness for C10: one concrete lookup-table step (new name appended
with id = size) and one concrete two-line ingestion with all recorded
pairs inside the final index range. -/
theorem C10_ids_are_dense_and_in_bounds_witness :
    ((index [] [("A", 0)] "B").1.map Prod.snd
        = List.range (index [] [("A", 0)] "B").1.length
      ∧ (index [] [("A", 0)] "B").2 < (index [] [("A", 0)] "B").1.length
      ∧ ∀ name v, lookupA [("A", 0)] name = some v →
          lookupA (index [] [("A", 0)] "B").1 name = some v) :=
  (C10_ids_are_dense_and_in_bounds []).1 [("A", 0)] "B" (by decide)

section MatrixCells

theorem getD_replicate {γ : Type} (a d : γ) :
    ∀ (n i : Nat), i < n → (List.replicate n a).getD i d = a := by
  intro n
  induction n with
  | zero => intro i h; omega
  | succ n ih =>
    intro i h
    cases i with
    | zero => rfl
    | succ m => simpa [List.replicate_succ] using ih m (by omega)

theorem getD_set_self {γ : Type} (l : List γ) (i : Nat) (a d : γ)
    (h : i < l.length) : (l.set i a).getD i d = a := by
  induction l generalizing i with
  | nil => simp at h
  | cons x t ih =>
    cases i with
    | zero => rfl
    | succ n => simpa using ih n (by simpa using h)

theorem getD_set_ne {γ : Type} (l : List γ) {i i' : Nat} (a d : γ)
    (h : i' ≠ i) : (l.set i a).getD i' d = l.getD i' d := by
  induction l generalizing i i' with
  | nil => rfl
  | cons x t ih =>
    cases i with
    | zero =>
      cases i' with
      | zero => exact absurd rfl h
      | succ n => rfl
    | succ m =>
      cases i' with
      | zero => rfl
      | succ n => simpa using ih (fun hc => h (by omega))

theorem set_getD_self {γ : Type} (l : List γ) (i : Nat) (d : γ)
    (h : i < l.length) : l.set i (l.getD i d) = l := by
  induction l generalizing i with
  | nil => simp at h
  | cons x t ih =>
    cases i with
    | zero => rfl
    | succ n => simpa using ih n (by simpa using h)

theorem mem_of_mem_set {γ : Type} {l : List γ} {i : Nat} {a x : γ}
    (h : x ∈ l.set i a) : x ∈ l ∨ x = a := by
  induction l generalizing i with
  | nil => simp at h
  | cons y t ih =>
    cases i with
    | zero =>
      rcases List.mem_cons.mp h with rfl | h
      · exact Or.inr rfl
      · exact Or.inl (List.mem_cons_of_mem y h)
    | succ n =>
      rcases List.mem_cons.mp h with rfl | h
      · exact Or.inl (List.mem_cons_self _ _)
      · rcases ih h with h | h
        · exact Or.inl (List.mem_cons_of_mem y h)
        · exact Or.inr h

theorem getD_mem {γ : Type} (l : List γ) (i : Nat) (d : γ)
    (h : i < l.length) : l.getD i d ∈ l := by
  induction l generalizing i with
  | nil => simp at h
  | cons x t ih =>
    cases i with
    | zero => exact List.mem_cons_self _ _
    | succ n => exact List.mem_cons_of_mem x (ih n (by simpa using h))

/-- A matrix has shape nn×nn: nn rows, each of length nn. -/
def Shape (M : Mat) (nn : Nat) : Prop :=
  M.length = nn ∧ ∀ row ∈ M, row.length = nn

theorem shape_zeroMat (nn : Nat) : Shape (zeroMat nn) nn := by
  constructor
  · simp [zeroMat]
  · intro row hrow
    rw [List.eq_of_mem_replicate hrow]
    simp

theorem shape_setEntry {M : Mat} {nn : Nat} (hs : Shape M nn) {i j : Nat}
    (hi : i < nn) (v : ℚ) : Shape (setEntry M i j v) nn := by
  obtain ⟨hlen, hrows⟩ := hs
  constructor
  · simp [setEntry, hlen]
  · intro row hrow
    rcases mem_of_mem_set hrow with h | rfl
    · exact hrows row h
    · rw [List.length_set]
      exact hrows _ (getD_mem M i [] (by omega))

theorem entry_setEntry {M : Mat} {nn : Nat} (hs : Shape M nn) {i j : Nat}
    (hi : i < nn) (hj : j < nn) (v : ℚ) (i' j' : Nat) :
    entry (setEntry M i j v) i' j' =
      if i' = i ∧ j' = j then v else entry M i' j' := by
  obtain ⟨hlen, hrows⟩ := hs
  have hrowlen : (M.getD i []).length = nn :=
    hrows _ (getD_mem M i [] (by omega))
  by_cases hii : i' = i
  · by_cases hjj : j' = j
    · rw [if_pos ⟨hii, hjj⟩]
      subst hii; subst hjj
      simp only [entry, setEntry]
      rw [getD_set_self M i' _ [] (by omega),
        getD_set_self (M.getD i' []) j' v 0 (by omega)]
    · have hc : ¬(i' = i ∧ j' = j) := fun h => hjj h.2
      rw [if_neg hc]
      subst hii
      simp only [entry, setEntry]
      rw [getD_set_self M i' _ [] (by omega), getD_set_ne _ _ _ hjj]
  · have hc : ¬(i' = i ∧ j' = j) := fun h => hii h.1
    rw [if_neg hc]
    simp only [entry, setEntry]
    rw [getD_set_ne _ _ _ hii]

theorem foldl_setEntry_spec (nn : Nat) :
    ∀ (links : List (Nat × Nat)) (M : Mat), Shape M nn →
      (∀ p ∈ links, p.1 < nn ∧ p.2 < nn) →
      Shape (links.foldl (fun M p => setEntry M p.1 p.2 1) M) nn ∧
        ∀ i j, entry (links.foldl (fun M p => setEntry M p.1 p.2 1) M) i j
          = if (i, j) ∈ links then 1 else entry M i j := by
  intro links
  induction links with
  | nil => intro M hs _; exact ⟨hs, by simp⟩
  | cons p rest ih =>
    intro M hs hb
    have hp := hb p (List.mem_cons_self p rest)
    have hs' : Shape (setEntry M p.1 p.2 1) nn := shape_setEntry hs hp.1 1
    obtain ⟨hshape, hentry⟩ :=
      ih (setEntry M p.1 p.2 1) hs' (fun q hq => hb q (List.mem_cons_of_mem p hq))
    refine ⟨by simpa using hshape, ?_⟩
    intro i j
    rw [List.foldl_cons, hentry i j, entry_setEntry hs hp.1 hp.2 1 i j]
    by_cases hin : (i, j) ∈ rest
    · simp [hin]
    · by_cases hpp : (i, j) = p
      · subst hpp
        simp
      · have hc : ¬(i = p.1 ∧ j = p.2) := by
          intro hc
          exact hpp (by rcases hc with ⟨rfl, rfl⟩; rfl)
        simp [hin, hpp, hc]

end MatrixCells

/-- Claim C7: cell (i, j) of the matrix built by `get_adjacency_matrix`
equals 1.0 iff at least one resolved link pair (i, j) was recorded, and
0 otherwise; re-recording an already-present pair (duplicate raw edges,
including distinct raw edges that the redirect map resolves to the same
pair) leaves the matrix unchanged — cells collapse to unit weight and
are never accumulated above 1.0. -/
theorem C7_cells_are_indicator (nn : Nat) (links : List (Nat × Nat))
    (hb : ∀ p ∈ links, p.1 < nn ∧ p.2 < nn) :
    (∀ i j, i < nn → j < nn →
        entry (buildMatrix nn links) i j = if (i, j) ∈ links then 1 else 0)
    ∧ ∀ i j, (i, j) ∈ links →
        buildMatrix nn (links ++ [(i, j)]) = buildMatrix nn links := by
  obtain ⟨hshape, hentry⟩ := foldl_setEntry_spec nn links (zeroMat nn) (shape_zeroMat nn) hb
  constructor
  · intro i j hi hj
    rw [buildMatrix, hentry i j]
    have hz : entry (zeroMat nn) i j = 0 := by
      simp only [entry, zeroMat]
      rw [getD_replicate _ _ _ _ hi, getD_replicate _ _ _ _ hj]
    rw [hz]
  · intro i j hmem
    have hij := hb (i, j) hmem
    have hshape' : Shape (buildMatrix nn links) nn := hshape
    rw [buildMatrix, List.foldl_append]
    have h1 : entry (buildMatrix nn links) i j = 1 := by
      rw [buildMatrix, hentry i j, if_pos hmem]
    simp only [List.foldl_cons, List.foldl_nil]
    show setEntry (buildMatrix nn links) i j 1 = buildMatrix nn links
    have hrowlen : ((buildMatrix nn links).getD i []).length = nn :=
      hshape'.2 _ (getD_mem _ i [] (by rw [hshape'.1]; exact hij.1))
    have hrow : ((buildMatrix nn links).getD i []).set j 1
        = (buildMatrix nn links).getD i [] := by
      have := set_getD_self ((buildMatrix nn links).getD i []) j 0
        (by rw [hrowlen]; exact hij.2)
      rwa [show ((buildMatrix nn links).getD i []).getD j 0
          = entry (buildMatrix nn links) i j from rfl, h1] at this
    rw [setEntry, hrow, set_getD_self _ i [] (by rw [hshape'.1]; exact hij.1)]

/-- Witness for C7 on a concrete 2×2 graph with a duplicate edge: the
cells are the 0/1 indicator of the recorded pairs, and appending the
duplicate (0, 1) changes nothing. -/
theorem C7_cells_are_indicator_witness :
    (∀ i j, i < 2 → j < 2 →
        entry (buildMatrix 2 [(0, 1), (1, 1)]) i j
          = if (i, j) ∈ [(0, 1), (1, 1)] then 1 else 0)
    ∧ ∀ i j, (i, j) ∈ ([(0, 1), (1, 1)] : List (Nat × Nat)) →
        buildMatrix 2 ([(0, 1), (1, 1)] ++ [(i, j)]) = buildMatrix 2 [(0, 1), (1, 1)] :=
  C7_cells_are_indicator 2 [(0, 1), (1, 1)] (by decide)

section LimitCutoff

theorem ingest_limit_count (redirects : List (String × String)) (m : Nat) :
    ∀ (stream : List (List String)) (l : Nat) (im : List (String × Nat))
      (links : List (Nat × Nat)),
      (ingest redirects (some m) stream l im links).2.length
        ≤ links.length + (m - 1 - l) + 1 := by
  intro stream
  induction stream with
  | nil => intro l im links; simp only [ingest]; omega
  | cons split rest ih =>
    intro l im links
    by_cases hmal : split.length ≠ 4
    · simp only [ingest, if_pos hmal]
      have := ih (l + 1) im links
      omega
    · by_cases hbrk : m - 1 ≤ l
      · simp only [ingest, if_neg hmal, if_pos hbrk]
        simp
      · simp only [ingest, if_neg hmal, if_neg hbrk]
        have := ih (l + 1)
          (index redirects
            (index redirects im (short_name (split.getD 0 ""))).1
            (short_name (split.getD 2 ""))).1
          (links ++ [((index redirects im (short_name (split.getD 0 ""))).2,
            (index redirects
              (index redirects im (short_name (split.getD 0 ""))).1
              (short_name (split.getD 2 ""))).2)])
        rw [List.length_append] at this
        simp only [List.length_singleton] at this
        omega

theorem ingest_limit_prefix (redirects : List (String × String)) (m : Nat) :
    ∀ (stream : List (List String)) (l : Nat) (im : List (String × Nat))
      (links : List (Nat × Nat)),
      ∃ k ≤ stream.length,
        ingest redirects (some m) stream l im links
          = ingest redirects none (stream.take k) l im links := by
  intro stream
  induction stream with
  | nil => intro l im links; exact ⟨0, le_refl _, rfl⟩
  | cons split rest ih =>
    intro l im links
    by_cases hmal : split.length ≠ 4
    · obtain ⟨k, hk, heq⟩ := ih (l + 1) im links
      refine ⟨k + 1, by simpa using hk, ?_⟩
      rw [List.take_succ_cons]
      simp only [ingest, if_pos hmal]
      exact heq
    · by_cases hbrk : m - 1 ≤ l
      · refine ⟨1, by simp, ?_⟩
        rw [show (split :: rest).take 1 = [split] from rfl]
        simp only [ingest, if_neg hmal, if_pos hbrk]
      · obtain ⟨k, hk, heq⟩ := ih (l + 1)
          (index redirects
            (index redirects im (short_name (split.getD 0 ""))).1
            (short_name (split.getD 2 ""))).1
          (links ++ [((index redirects im (short_name (split.getD 0 ""))).2,
            (index redirects
              (index redirects im (short_name (split.getD 0 ""))).1
              (short_name (split.getD 2 ""))).2)])
        refine ⟨k + 1, by simpa using hk, ?_⟩
        rw [List.take_succ_cons]
        simp only [ingest, if_neg hmal, if_neg hbrk]
        exact heq

end LimitCutoff

/-- Claim C6: with a positive limit m, `get_adjacency_matrix` records at
most m link edges, and its entire result (matrix, redirect map and index
map alike) equals the unlimited run on a prefix of the input stream —
the limit is a stream-prefix cutoff, not a sample, malformed lines
included (they are skipped identically on both sides). -/
theorem C6_limit_is_prefix_cutoff (redirect_lines stream : List (List String))
    (m : Nat) (hm : 0 < m) :
    (ingest (get_redirects redirect_lines) (some m) stream 0 [] []).2.length ≤ m
    ∧ ∃ k ≤ stream.length,
        get_adjacency_matrix redirect_lines stream (some m)
          = get_adjacency_matrix redirect_lines (stream.take k) none := by
  constructor
  · have := ingest_limit_count (get_redirects redirect_lines) m stream 0 [] []
    simp only [List.length_nil] at this
    omega
  · obtain ⟨k, hk, heq⟩ :=
      ingest_limit_prefix (get_redirects redirect_lines) m stream 0 [] []
    exact ⟨k, hk, by simp only [get_adjacency_matrix, heq]⟩

/-- Witness for C6: a concrete three-line stream (with a malformed
middle line) under limit 1 records at most one edge and equals the
unlimited run on a prefix. -/
theorem C6_limit_is_prefix_cutoff_witness :
    (ingest (get_redirects []) (some 1)
        [["<a>", "<p>", "<b>", "."], ["bad"], ["<c>", "<p>", "<d>", "."]]
        0 [] []).2.length ≤ 1
    ∧ ∃ k ≤ ([["<a>", "<p>", "<b>", "."], ["bad"],
          ["<c>", "<p>", "<d>", "."]] : List (List String)).length,
        get_adjacency_matrix []
            [["<a>", "<p>", "<b>", "."], ["bad"], ["<c>", "<p>", "<d>", "."]]
            (some 1)
          = get_adjacency_matrix []
              ([["<a>", "<p>", "<b>", "."], ["bad"],
                ["<c>", "<p>", "<d>", "."]].take k) none :=
  C6_limit_is_prefix_cutoff []
    [["<a>", "<p>", "<b>", "."], ["bad"], ["<c>", "<p>", "<d>", "."]]
    1 (by decide)

section CentralityEngine

/-- The row-normalization step of `centrality_scores`: rows with a
nonzero out-degree (`incoming_counts.nonzero()`) have every entry
multiplied by `1.0 / incoming_counts[i]`; other rows are untouched. -/
def normalizeRow (row : List ℚ) : List ℚ :=
  if row.sum ≠ 0 then row.map (fun x => x * (1 / row.sum)) else row

/-- Row-normalize the whole matrix (value view of the in-place CSR
data mutation loop). -/
def normalizeX (X : Mat) : Mat := X.map normalizeRow

/-- The dangling-mass vector: `np.where(X.sum(axis=1) == 0, 1.0/n, 0)`,
computed from the row-normalized matrix as in the source. -/
def dangleVec (n : Nat) (Xn : Mat) : List ℚ :=
  Xn.map (fun row => if row.sum = 0 then 1 / (n : ℚ) else 0)

/-- The vector–matrix product `scores * X` of the power step. -/
def vmProd (n : Nat) (s : List ℚ) (Xn : Mat) : List ℚ :=
  (List.range n).map (fun j =>
    ((List.range n).map (fun i => s.getD i 0 * entry Xn i j)).sum)

/-- `np.dot` of two vectors. -/
def dotL (a b : List ℚ) : ℚ := (List.zipWith (· * ·) a b).sum

/-- One damped power-iteration update:
`alpha * (scores * X + dot(dangle, prev)) + (1 - alpha) * prev.sum() / n`
(the scalar terms broadcast over all entries). -/
def updateScores (n : Nat) (Xn : Mat) (alpha : ℚ) (d s : List ℚ) : List ℚ :=
  (vmProd n s Xn).map (fun x => alpha * (x + dotL d s) + (1 - alpha) * s.sum / n)

/-- `np.abs(v).max()` (0 for the empty vector). -/
def linfNorm (v : List ℚ) : ℚ := (v.map abs).foldl max 0

/-- The convergence check of one iteration: the maximum absolute
per-entry change between the updated and previous scores, normalized by
the maximum absolute updated score (or by 1 when that maximum is 0). -/
def stepErr (n : Nat) (Xn : Mat) (alpha : ℚ) (d s : List ℚ) : ℚ :=
  let s' := updateScores n Xn alpha d s
  let smax := if linfNorm s' = 0 then 1 else linfNorm s'
  linfNorm (List.zipWith (· - ·) s' s) / smax

/-- The `for i in range(max_iter)` loop of `centrality_scores`: update,
then early-return the new scores when the normalized l_inf error drops
below `n * tol`; otherwise keep iterating, returning the last scores
when the iteration budget is exhausted. -/
def powerLoop (n : Nat) (Xn : Mat) (alpha tol : ℚ) (d : List ℚ) :
    Nat → List ℚ → List ℚ
  | 0, s => s
  | fuel + 1, s =>
    if stepErr n Xn alpha d s < n * tol then updateScores n Xn alpha d s
    else powerLoop n Xn alpha tol d fuel (updateScores n Xn alpha d s)

/-- Embedding of `centrality_scores`: copy the matrix, row-normalize the
copy, build the dangling vector, start from the uniform vector and run
the damped power iteration. Its only result is the score vector, exactly
as in the source (`return scores` on both exits). -/
def centrality_scores (X : Mat) (alpha : ℚ) (max_iter : Nat) (tol : ℚ) : List ℚ :=
  powerLoop X.length (normalizeX X) alpha tol
    (dangleVec X.length (normalizeX X)) max_iter
    (List.replicate X.length (1 / (X.length : ℚ)))

/-- The same loop instrumented with the quantities the source only
prints: iterations executed, last computed error, and whether the
tolerance threshold was met (the early-return branch was taken). -/
def powerLoopInfo (n : Nat) (Xn : Mat) (alpha tol : ℚ) (d : List ℚ) :
    Nat → Nat → ℚ → List ℚ → List ℚ × Nat × ℚ × Bool
  | 0, it, e, s => (s, it, e, false)
  | fuel + 1, it, _, s =>
    if stepErr n Xn alpha d s < n * tol then
      (updateScores n Xn alpha d s, it + 1, stepErr n Xn alpha d s, true)
    else powerLoopInfo n Xn alpha tol d fuel (it + 1) (stepErr n Xn alpha d s)
      (updateScores n Xn alpha d s)

/-- `centrality_scores` instrumented with convergence information
(iteration count, final error, converged flag). -/
def centrality_scores_info (X : Mat) (alpha : ℚ) (max_iter : Nat) (tol : ℚ) :
    List ℚ × Nat × ℚ × Bool :=
  powerLoopInfo X.length (normalizeX X) alpha tol
    (dangleVec X.length (normalizeX X)) max_iter 0 0
    (List.replicate X.length (1 / (X.length : ℚ)))

/-- Modelled from the spec (not present in the source): the
InvalidParameter fail-fast policy — reject a damping factor outside
(0,1), a non-positive max_iter (0 in this Nat embedding), or a
non-positive tolerance before any computation. Used to compare the
spec's claimed validation against the code's actual behavior. -/
def centrality_scores_validated (X : Mat) (alpha : ℚ) (max_iter : Nat)
    (tol : ℚ) : Except String (List ℚ) :=
  if alpha ≤ 0 ∨ 1 ≤ alpha then Except.error "damping factor outside (0,1)"
  else if max_iter = 0 then Except.error "non-positive max_iter"
  else if tol ≤ 0 then Except.error "non-positive tolerance"
  else Except.ok (centrality_scores X alpha max_iter tol)

end CentralityEngine

section RowNormalization

theorem sum_map_mul_const (l : List ℚ) (c : ℚ) :
    (l.map (fun x => x * c)).sum = l.sum * c := by
  induction l with
  | nil => simp
  | cons x t ih => simp [ih, add_mul]

theorem normalizeRow_sum (row : List ℚ) :
    (normalizeRow row).sum = if row.sum = 0 then 0 else 1 := by
  by_cases h : row.sum = 0
  · simp [normalizeRow, h]
  · rw [if_neg h]
    simp only [normalizeRow, if_pos h]
    rw [sum_map_mul_const]
    exact mul_one_div_cancel h

theorem normalizeRow_length (row : List ℚ) :
    (normalizeRow row).length = row.length := by
  by_cases h : row.sum = 0 <;> simp [normalizeRow, h]

theorem normalizeX_length (X : Mat) : (normalizeX X).length = X.length := by
  simp [normalizeX]

theorem all_zero_of_sum_zero {l : List ℚ} (hpos : ∀ x ∈ l, 0 ≤ x)
    (hsum : l.sum = 0) : ∀ x ∈ l, x = 0 := by
  induction l with
  | nil => simp
  | cons y t ih =>
    have hy : 0 ≤ y := hpos y (List.mem_cons_self y t)
    have ht : 0 ≤ t.sum :=
      List.sum_nonneg (fun x hx => hpos x (List.mem_cons_of_mem y hx))
    rw [List.sum_cons] at hsum
    have hy0 : y = 0 := by linarith
    have hts : t.sum = 0 := by linarith
    intro x hx
    rcases List.mem_cons.mp hx with rfl | hx
    · exact hy0
    · exact ih (fun z hz => hpos z (List.mem_cons_of_mem y hz)) hts x hx

theorem getD_map {γ δ : Type} (f : γ → δ) (l : List γ) (i : Nat) (d : δ)
    (d₀ : γ) (h : i < l.length) : (l.map f).getD i d = f (l.getD i d₀) := by
  induction l generalizing i with
  | nil => simp at h
  | cons x t ih =>
    cases i with
    | zero => rfl
    | succ n => simpa using ih n (by simpa using h)

end RowNormalization

/-- Claim C5: after the row-normalization step of `centrality_scores`,
every row with positive original out-degree (row sum) sums to exactly 1
(the float statement "1 up to tolerance" is exact in this rational
embedding); rows with out-degree 0 are untouched and, being nonnegative,
are all-zero; and the dangling-mass vector holds 1/N exactly at the
zero-row indices and 0 elsewhere. -/
theorem C5_normalization_rows (X : Mat)
    (hpos : ∀ row ∈ X, ∀ x ∈ row, 0 ≤ x) :
    (∀ row ∈ X, 0 < row.sum → (normalizeRow row).sum = 1)
    ∧ (∀ row ∈ X, row.sum = 0 → normalizeRow row = row ∧ ∀ x ∈ row, x = 0)
    ∧ ∀ i, i < X.length →
        (dangleVec X.length (normalizeX X)).getD i 0
          = if (X.getD i []).sum = 0 then 1 / (X.length : ℚ) else 0 := by
  refine ⟨?_, ?_, ?_⟩
  · intro row _ hrow
    rw [normalizeRow_sum, if_neg (ne_of_gt hrow)]
  · intro row hrowX hrow
    exact ⟨by simp [normalizeRow, hrow],
      all_zero_of_sum_zero (hpos row hrowX) hrow⟩
  · intro i hi
    have hi' : i < (normalizeX X).length := by rwa [normalizeX_length]
    rw [dangleVec, getD_map _ _ i 0 [] hi',
      show (normalizeX X).getD i [] = normalizeRow (X.getD i []) from
        getD_map normalizeRow X i [] [] hi,
      normalizeRow_sum]
    by_cases h : (X.getD i []).sum = 0 <;> simp [h]

/-- Witness for C5 on the concrete matrix [[1,1],[0,0]]: the nonzero row
normalizes to sum 1, the zero row stays all-zero, and the dangling
vector is [0, 1/2]. -/
theorem C5_normalization_rows_witness :
    (∀ row ∈ ([[1, 1], [0, 0]] : Mat), 0 < row.sum → (normalizeRow row).sum = 1)
    ∧ (∀ row ∈ ([[1, 1], [0, 0]] : Mat), row.sum = 0 →
        normalizeRow row = row ∧ ∀ x ∈ row, x = 0)
    ∧ ∀ i, i < ([[1, 1], [0, 0]] : Mat).length →
        (dangleVec ([[1, 1], [0, 0]] : Mat).length
            (normalizeX ([[1, 1], [0, 0]] : Mat))).getD i 0
          = if (([[1, 1], [0, 0]] : Mat).getD i []).sum = 0
            then 1 / (([[1, 1], [0, 0]] : Mat).length : ℚ) else 0 :=
  C5_normalization_rows [[1, 1], [0, 0]] (by
    intro row hrow x hx
    simp only [List.mem_cons, List.not_mem_nil, or_false] at hrow
    rcases hrow with rfl | rfl <;> simp only [List.mem_cons, List.not_mem_nil, or_false] at hx <;>
      rcases hx with rfl | rfl <;> norm_num)

section ScoreMass

theorem sum_map_range (n : Nat) (f : Nat → ℚ) :
    ((List.range n).map f).sum = ∑ j in Finset.range n, f j := by
  induction n with
  | zero => simp
  | succ n ih =>
    rw [List.range_succ, List.map_append, List.sum_append,
      Finset.sum_range_succ, ih]
    simp

theorem sum_eq_sum_getD (l : List ℚ) :
    ∑ j in Finset.range l.length, l.getD j 0 = l.sum := by
  induction l with
  | nil => simp
  | cons x t ih =>
    rw [List.length_cons, Finset.sum_range_succ']
    simp only [List.getD_cons_succ, List.getD_cons_zero]
    rw [ih, List.sum_cons, add_comm]

theorem dotL_eq_sum :
    ∀ (a b : List ℚ) (n : Nat), a.length = n → b.length = n →
      dotL a b = ∑ i in Finset.range n, a.getD i 0 * b.getD i 0 := by
  intro a
  induction a with
  | nil =>
    intro b n ha _
    obtain rfl : n = 0 := by simpa using ha.symm
    simp [dotL]
  | cons x t ih =>
    intro b n ha hb
    obtain ⟨m, rfl⟩ : ∃ m, n = m + 1 := ⟨t.length, by simpa using ha.symm⟩
    cases b with
    | nil => simp at hb
    | cons y u =>
      have ht : t.length = m := by simpa using ha
      have hu : u.length = m := by simpa using hb
      simp only [dotL, List.zipWith_cons_cons, List.sum_cons]
      rw [Finset.sum_range_succ']
      simp only [List.getD_cons_succ, List.getD_cons_zero]
      rw [show (List.zipWith (· * ·) t u).sum = dotL t u from rfl,
        ih u m ht hu, add_comm]

theorem getD_nonneg {l : List ℚ} (h : ∀ x ∈ l, 0 ≤ x) (i : Nat) :
    0 ≤ l.getD i 0 := by
  by_cases hi : i < l.length
  · exact h _ (getD_mem l i 0 hi)
  · rw [List.getD_eq_default _ _ (by omega)]

theorem normalizeRow_nonneg {row : List ℚ} (h : ∀ x ∈ row, 0 ≤ x) :
    ∀ x ∈ normalizeRow row, 0 ≤ x := by
  by_cases hs : row.sum = 0
  · simpa [normalizeRow, hs] using h
  · intro x hx
    simp only [normalizeRow, if_pos hs] at hx
    obtain ⟨y, hy, rfl⟩ := List.mem_map.mp hx
    have hpos : 0 < row.sum := lt_of_le_of_ne (List.sum_nonneg h) (Ne.symm hs)
    exact mul_nonneg (h y hy) (le_of_lt (by positivity))

theorem entry_normalizeX_nonneg {X : Mat}
    (hpos : ∀ row ∈ X, ∀ x ∈ row, 0 ≤ x) (i j : Nat) :
    0 ≤ entry (normalizeX X) i j := by
  by_cases hi : i < X.length
  · have hXn_row : (normalizeX X).getD i [] = normalizeRow (X.getD i []) :=
      getD_map normalizeRow X i [] [] hi
    rw [entry, hXn_row]
    exact getD_nonneg (normalizeRow_nonneg (hpos _ (getD_mem X i [] hi))) j
  · have h0 : (normalizeX X).getD i [] = ([] : List ℚ) :=
      List.getD_eq_default _ _ (by rw [normalizeX_length]; omega)
    rw [entry, h0]
    simp

theorem dotL_nonneg :
    ∀ {a b : List ℚ}, (∀ x ∈ a, 0 ≤ x) → (∀ x ∈ b, 0 ≤ x) → 0 ≤ dotL a b := by
  intro a
  induction a with
  | nil => intro b _ _; simp [dotL]
  | cons x t ih =>
    intro b ha hb
    cases b with
    | nil => simp [dotL]
    | cons y u =>
      simp only [dotL, List.zipWith_cons_cons, List.sum_cons]
      have h1 : 0 ≤ x * y :=
        mul_nonneg (ha x (List.mem_cons_self x t)) (hb y (List.mem_cons_self y u))
      have h2 : 0 ≤ dotL t u :=
        ih (fun z hz => ha z (List.mem_cons_of_mem x hz))
          (fun z hz => hb z (List.mem_cons_of_mem y hz))
      exact add_nonneg h1 h2

theorem dangleVec_nonneg (n : Nat) (Xn : Mat) : ∀ x ∈ dangleVec n Xn, 0 ≤ x := by
  intro x hx
  obtain ⟨row, _, rfl⟩ := List.mem_map.mp hx
  by_cases h : row.sum = 0
  · rw [if_pos h]
    exact div_nonneg zero_le_one (Nat.cast_nonneg n)
  · rw [if_neg h]

theorem dangleVec_length (n : Nat) (Xn : Mat) : (dangleVec n Xn).length = Xn.length := by
  simp [dangleVec]

theorem dangleVec_getD {X : Mat} {i : Nat} (hi : i < X.length) :
    (dangleVec X.length (normalizeX X)).getD i 0
      = if (X.getD i []).sum = 0 then 1 / (X.length : ℚ) else 0 := by
  have hi' : i < (normalizeX X).length := by rwa [normalizeX_length]
  rw [dangleVec, getD_map _ _ i 0 [] hi',
    show (normalizeX X).getD i [] = normalizeRow (X.getD i []) from
      getD_map normalizeRow X i [] [] hi,
    normalizeRow_sum]
  by_cases h : (X.getD i []).sum = 0 <;> simp [h]

theorem updateScores_length (n : Nat) (Xn : Mat) (alpha : ℚ) (d s : List ℚ) :
    (updateScores n Xn alpha d s).length = n := by
  simp [updateScores, vmProd]

theorem updateScores_sum (X : Mat) (alpha : ℚ) (s : List ℚ)
    (hsq : ∀ row ∈ X, row.length = X.length)
    (hn : 0 < X.length) (hslen : s.length = X.length) :
    (updateScores X.length (normalizeX X) alpha
        (dangleVec X.length (normalizeX X)) s).sum = s.sum := by
  have hn' : (X.length : ℚ) ≠ 0 := Nat.cast_ne_zero.mpr (by omega)
  have hrow : ∀ i ∈ Finset.range X.length,
      ∑ j in Finset.range X.length, entry (normalizeX X) i j
        = if (X.getD i []).sum = 0 then 0 else 1 := by
    intro i hi
    have hi' := Finset.mem_range.mp hi
    have hXn_row : (normalizeX X).getD i [] = normalizeRow (X.getD i []) :=
      getD_map normalizeRow X i [] [] hi'
    have hlen : ((normalizeX X).getD i []).length = X.length := by
      rw [hXn_row, normalizeRow_length]
      exact hsq _ (getD_mem X i [] hi')
    calc ∑ j in Finset.range X.length, entry (normalizeX X) i j
        = ∑ j in Finset.range ((normalizeX X).getD i []).length,
            ((normalizeX X).getD i []).getD j 0 := by rw [hlen]; rfl
      _ = ((normalizeX X).getD i []).sum := sum_eq_sum_getD _
      _ = if (X.getD i []).sum = 0 then 0 else 1 := by
          rw [hXn_row, normalizeRow_sum]
  have hdlen : (dangleVec X.length (normalizeX X)).length = X.length := by
    rw [dangleVec_length, normalizeX_length]
  have hD : dotL (dangleVec X.length (normalizeX X)) s
      = ∑ i in Finset.range X.length,
          (dangleVec X.length (normalizeX X)).getD i 0 * s.getD i 0 :=
    dotL_eq_sum _ _ X.length hdlen hslen
  -- the sum of the update is computed index-wise
  rw [updateScores, vmProd, List.map_map, sum_map_range]
  simp only [Function.comp]
  have hsplit : ∀ j ∈ Finset.range X.length,
      alpha * (((List.range X.length).map
            (fun i => s.getD i 0 * entry (normalizeX X) i j)).sum
          + dotL (dangleVec X.length (normalizeX X)) s)
        + (1 - alpha) * s.sum / (X.length : ℚ)
      = alpha * (∑ i in Finset.range X.length,
            s.getD i 0 * entry (normalizeX X) i j)
        + (alpha * dotL (dangleVec X.length (normalizeX X)) s
            + (1 - alpha) * s.sum / (X.length : ℚ)) := by
    intro j _
    rw [sum_map_range]
    ring
  rw [Finset.sum_congr rfl hsplit, Finset.sum_add_distrib, Finset.sum_const,
    Finset.card_range, ← Finset.mul_sum, Finset.sum_comm]
  have hinner : ∀ i ∈ Finset.range X.length,
      ∑ j in Finset.range X.length, s.getD i 0 * entry (normalizeX X) i j
        = s.getD i 0 * (if (X.getD i []).sum = 0 then 0 else 1) := by
    intro i hi
    rw [← Finset.mul_sum, hrow i hi]
  rw [Finset.sum_congr rfl hinner, hD, nsmul_eq_mul]
  have hdpt : ∀ i ∈ Finset.range X.length,
      (dangleVec X.length (normalizeX X)).getD i 0 * s.getD i 0
        = (if (X.getD i []).sum = 0 then (1 / (X.length : ℚ)) * s.getD i 0 else 0) := by
    intro i hi
    rw [dangleVec_getD (Finset.mem_range.mp hi)]
    by_cases h : (X.getD i []).sum = 0 <;> simp [h]
  rw [Finset.sum_congr rfl hdpt]
  have hcombine :
      alpha * (∑ i in Finset.range X.length,
          s.getD i 0 * (if (X.getD i []).sum = 0 then 0 else 1))
        + (X.length : ℚ) * (alpha * (∑ i in Finset.range X.length,
            (if (X.getD i []).sum = 0 then (1 / (X.length : ℚ)) * s.getD i 0 else 0))
          + (1 - alpha) * s.sum / (X.length : ℚ))
      = alpha * (∑ i in Finset.range X.length,
          (s.getD i 0 * (if (X.getD i []).sum = 0 then 0 else 1)
            + (X.length : ℚ) * (if (X.getD i []).sum = 0
                then (1 / (X.length : ℚ)) * s.getD i 0 else 0)))
        + (1 - alpha) * s.sum := by
    rw [Finset.sum_add_distrib, ← Finset.mul_sum]
    field_simp
    ring
  rw [hcombine]
  have hpoint : ∀ i ∈ Finset.range X.length,
      s.getD i 0 * (if (X.getD i []).sum = 0 then 0 else 1)
        + (X.length : ℚ) * (if (X.getD i []).sum = 0
            then (1 / (X.length : ℚ)) * s.getD i 0 else 0)
      = s.getD i 0 := by
    intro i _
    by_cases h : (X.getD i []).sum = 0
    · rw [if_pos h, if_pos h]
      field_simp
    · rw [if_neg h, if_neg h]
      ring
  rw [Finset.sum_congr rfl hpoint,
    show ∑ i in Finset.range X.length, s.getD i 0 = s.sum from by
      rw [← hslen]; exact sum_eq_sum_getD s]
  ring

theorem updateScores_nonneg (X : Mat) (alpha : ℚ) (s : List ℚ)
    (hpos : ∀ row ∈ X, ∀ x ∈ row, 0 ≤ x) (ha0 : 0 ≤ alpha) (ha1 : alpha ≤ 1)
    (hs : ∀ x ∈ s, 0 ≤ x) :
    ∀ x ∈ updateScores X.length (normalizeX X) alpha
        (dangleVec X.length (normalizeX X)) s, 0 ≤ x := by
  intro x hx
  obtain ⟨y, hy, rfl⟩ := List.mem_map.mp hx
  have hy0 : 0 ≤ y := by
    obtain ⟨j, _, rfl⟩ := List.mem_map.mp hy
    apply List.sum_nonneg
    intro z hz
    obtain ⟨i, _, rfl⟩ := List.mem_map.mp hz
    exact mul_nonneg (getD_nonneg hs i) (entry_normalizeX_nonneg hpos i j)
  have hD : 0 ≤ dotL (dangleVec X.length (normalizeX X)) s :=
    dotL_nonneg (dangleVec_nonneg _ _) hs
  have hsum : 0 ≤ s.sum := List.sum_nonneg hs
  have h1a : 0 ≤ 1 - alpha := by linarith
  exact add_nonneg (mul_nonneg ha0 (add_nonneg hy0 hD))
    (div_nonneg (mul_nonneg h1a hsum) (Nat.cast_nonneg _))

/-- The probability-mass invariant of the score vector: length N,
nonnegative entries, total mass exactly 1. -/
def ScoreInv (n : Nat) (v : List ℚ) : Prop :=
  v.length = n ∧ (∀ x ∈ v, 0 ≤ x) ∧ v.sum = 1

theorem scoreInv_init (n : Nat) (hn : 0 < n) :
    ScoreInv n (List.replicate n (1 / (n : ℚ))) := by
  refine ⟨by simp, ?_, ?_⟩
  · intro x hx
    rw [List.eq_of_mem_replicate hx]
    exact div_nonneg zero_le_one (Nat.cast_nonneg n)
  · rw [List.sum_replicate, nsmul_eq_mul]
    exact mul_one_div_cancel (Nat.cast_ne_zero.mpr (by omega))

theorem scoreInv_update (X : Mat) (alpha : ℚ)
    (hsq : ∀ row ∈ X, row.length = X.length)
    (hpos : ∀ row ∈ X, ∀ x ∈ row, 0 ≤ x)
    (hn : 0 < X.length) (ha0 : 0 < alpha) (ha1 : alpha < 1)
    {s : List ℚ} (hs : ScoreInv X.length s) :
    ScoreInv X.length (updateScores X.length (normalizeX X) alpha
      (dangleVec X.length (normalizeX X)) s) := by
  refine ⟨updateScores_length _ _ _ _ _, ?_, ?_⟩
  · exact updateScores_nonneg X alpha s hpos (le_of_lt ha0) (le_of_lt ha1) hs.2.1
  · rw [updateScores_sum X alpha s hsq hn hs.1]
    exact hs.2.2

theorem scoreInv_powerLoop (X : Mat) (alpha tol : ℚ)
    (hsq : ∀ row ∈ X, row.length = X.length)
    (hpos : ∀ row ∈ X, ∀ x ∈ row, 0 ≤ x)
    (hn : 0 < X.length) (ha0 : 0 < alpha) (ha1 : alpha < 1) :
    ∀ (fuel : Nat) (s : List ℚ), ScoreInv X.length s →
      ScoreInv X.length (powerLoop X.length (normalizeX X) alpha tol
        (dangleVec X.length (normalizeX X)) fuel s) := by
  intro fuel
  induction fuel with
  | zero => intro s hs; exact hs
  | succ fuel ih =>
    intro s hs
    have hs' := scoreInv_update X alpha hsq hpos hn ha0 ha1 hs
    simp only [powerLoop]
    split
    · exact hs'
    · exact ih _ hs'

end ScoreMass

/-- Claim C4: with a damping factor in (0,1) and a nonnegative square
adjacency matrix, the score vector inside `centrality_scores` has only
nonnegative entries and total mass exactly 1: at initialization, after
every damped power-iteration update, and for the returned vector (the
float statement "approximately 1" is exact in this rational embedding). -/
theorem C4_scores_are_probability_mass (X : Mat) (alpha : ℚ)
    (max_iter : Nat) (tol : ℚ)
    (hsq : ∀ row ∈ X, row.length = X.length)
    (hpos : ∀ row ∈ X, ∀ x ∈ row, 0 ≤ x)
    (hn : 0 < X.length) (ha0 : 0 < alpha) (ha1 : alpha < 1) :
    ScoreInv X.length (List.replicate X.length (1 / (X.length : ℚ)))
    ∧ (∀ s, ScoreInv X.length s →
        ScoreInv X.length (updateScores X.length (normalizeX X) alpha
          (dangleVec X.length (normalizeX X)) s))
    ∧ ScoreInv X.length (centrality_scores X alpha max_iter tol) := by
  refine ⟨scoreInv_init X.length hn, ?_, ?_⟩
  · intro s hs
    exact scoreInv_update X alpha hsq hpos hn ha0 ha1 hs
  · exact scoreInv_powerLoop X alpha tol hsq hpos hn ha0 ha1 max_iter _
      (scoreInv_init X.length hn)

/-- Witness for C4 on the 2×2 matrix [[0,1],[0,0]] with alpha = 1/2: the
initial, updated and returned score vectors are probability vectors. -/
theorem C4_scores_are_probability_mass_witness :
    ScoreInv ([[0, 1], [0, 0]] : Mat).length
      (List.replicate ([[0, 1], [0, 0]] : Mat).length
        (1 / (([[0, 1], [0, 0]] : Mat).length : ℚ)))
    ∧ (∀ s, ScoreInv ([[0, 1], [0, 0]] : Mat).length s →
        ScoreInv ([[0, 1], [0, 0]] : Mat).length
          (updateScores ([[0, 1], [0, 0]] : Mat).length
            (normalizeX [[0, 1], [0, 0]]) (1 / 2)
            (dangleVec ([[0, 1], [0, 0]] : Mat).length
              (normalizeX [[0, 1], [0, 0]])) s))
    ∧ ScoreInv ([[0, 1], [0, 0]] : Mat).length
        (centrality_scores [[0, 1], [0, 0]] (1 / 2) 3 (1 / 100)) :=
  C4_scores_are_probability_mass [[0, 1], [0, 0]] (1 / 2) 3 (1 / 100)
    (by intro row hrow
        simp only [List.mem_cons, List.not_mem_nil, or_false] at hrow
        rcases hrow with rfl | rfl <;> rfl)
    (by intro row hrow x hx
        simp only [List.mem_cons, List.not_mem_nil, or_false] at hrow
        rcases hrow with rfl | rfl <;>
          simp only [List.mem_cons, List.not_mem_nil, or_false] at hx <;>
          rcases hx with rfl | rfl <;> norm_num)
    (by norm_num) (by norm_num) (by norm_num)

section NoValidation

theorem powerLoop_length (n : Nat) (Xn : Mat) (alpha tol : ℚ) (d : List ℚ) :
    ∀ (fuel : Nat) (s : List ℚ), s.length = n →
      (powerLoop n Xn alpha tol d fuel s).length = n := by
  intro fuel
  induction fuel with
  | zero => intro s hs; exact hs
  | succ fuel ih =>
    intro s _
    simp only [powerLoop]
    split
    · exact updateScores_length n Xn alpha d s
    · exact ih _ (updateScores_length n Xn alpha d s)

end NoValidation

/-- Claim C3 (amended): `centrality_scores` performs no parameter
validation at all. Every call — damping factor outside (0,1),
non-positive max_iter, non-positive tolerance included — proceeds
through normalization and iteration and returns an N-entry score
vector; a zero iteration budget returns the uniform initial guess. -/
theorem C3_no_validation_always_computes (X : Mat) (alpha : ℚ)
    (max_iter : Nat) (tol : ℚ) :
    (centrality_scores X alpha max_iter tol).length = X.length
    ∧ centrality_scores X alpha 0 tol
        = List.replicate X.length (1 / (X.length : ℚ)) := by
  constructor
  · exact powerLoop_length X.length (normalizeX X) alpha tol
      (dangleVec X.length (normalizeX X)) max_iter _ (by simp)
  · rfl

/-- Counterexample to claim C3 as stated: the invalid damping factor
alpha = 2 with tol = 0 is not rejected — `centrality_scores` normalizes
the matrix and runs a full power iteration, returning the iterated
vector [0, 1], while the spec-modelled fail-fast validator rejects the
same call before computing. -/
theorem C3_counterexample :
    centrality_scores [[0, 1], [0, 0]] 2 1 0 = [0, 1]
    ∧ centrality_scores_validated [[0, 1], [0, 0]] 2 1 0
        = Except.error "damping factor outside (0,1)" := by
  constructor
  · norm_num [centrality_scores, powerLoop, stepErr, updateScores, vmProd, dotL,
      linfNorm, normalizeX, normalizeRow, dangleVec, entry, List.range_succ,
      List.replicate_succ]
  · norm_num [centrality_scores_validated]

section ReturnShape

theorem powerLoopInfo_fst (n : Nat) (Xn : Mat) (alpha tol : ℚ) (d : List ℚ) :
    ∀ (fuel it : Nat) (e : ℚ) (s : List ℚ),
      (powerLoopInfo n Xn alpha tol d fuel it e s).1
        = powerLoop n Xn alpha tol d fuel s := by
  intro fuel
  induction fuel with
  | zero => intro it e s; rfl
  | succ fuel ih =>
    intro it e s
    simp only [powerLoop, powerLoopInfo]
    split
    · rfl
    · exact ih _ _ _

end ReturnShape

/-- Claim C8 (amended): when the tolerance is not met within max_iter,
`centrality_scores` does return the best-effort score vector, but that
vector is all it returns — the iteration count and final error are only
printed, never exposed alongside the result: on every input the return
value is exactly the vector component of the instrumented run. -/
theorem C8_returns_only_vector (X : Mat) (alpha : ℚ) (max_iter : Nat)
    (tol : ℚ) :
    centrality_scores X alpha max_iter tol
      = (centrality_scores_info X alpha max_iter tol).1 :=
  (powerLoopInfo_fst X.length (normalizeX X) alpha tol
    (dangleVec X.length (normalizeX X)) max_iter 0 0 _).symm

/-- Counterexample to claim C8 as stated: two concrete runs on the same
1×1 matrix — one converging after 1 iteration, one exhausting all 3
iterations without meeting its threshold — return the *same* vector
[1], so no function of the returned value can recover the iteration
count (or the error): the claimed convergence information is not
exposed alongside the result. -/
theorem C8_counterexample :
    centrality_scores [[0]] (1 / 2) 3 1 = centrality_scores [[0]] (1 / 2) 3 0
    ∧ (centrality_scores_info [[0]] (1 / 2) 3 1).2.1 = 1
    ∧ (centrality_scores_info [[0]] (1 / 2) 3 0).2.1 = 3
    ∧ (centrality_scores_info [[0]] (1 / 2) 3 1).2.2.2 = true
    ∧ (centrality_scores_info [[0]] (1 / 2) 3 0).2.2.2 = false
    ∧ ¬ ∃ g : List ℚ → Nat,
        g (centrality_scores [[0]] (1 / 2) 3 1)
            = (centrality_scores_info [[0]] (1 / 2) 3 1).2.1
          ∧ g (centrality_scores [[0]] (1 / 2) 3 0)
            = (centrality_scores_info [[0]] (1 / 2) 3 0).2.1 := by
  have heval : centrality_scores [[0]] (1 / 2) 3 1 = [1]
      ∧ centrality_scores [[0]] (1 / 2) 3 0 = [1] := by
    constructor <;>
      norm_num [centrality_scores, powerLoop, stepErr, updateScores, vmProd,
        dotL, linfNorm, normalizeX, normalizeRow, dangleVec, entry,
        List.range_succ, List.replicate_succ]
  have hit1 : (centrality_scores_info [[0]] (1 / 2) 3 1).2.1 = 1
      ∧ (centrality_scores_info [[0]] (1 / 2) 3 1).2.2.2 = true := by
    norm_num [centrality_scores_info, powerLoopInfo, stepErr, updateScores,
      vmProd, dotL, linfNorm, normalizeX, normalizeRow, dangleVec, entry,
      List.range_succ, List.replicate_succ]
  have hit0 : (centrality_scores_info [[0]] (1 / 2) 3 0).2.1 = 3
      ∧ (centrality_scores_info [[0]] (1 / 2) 3 0).2.2.2 = false := by
    norm_num [centrality_scores_info, powerLoopInfo, stepErr, updateScores,
      vmProd, dotL, linfNorm, normalizeX, normalizeRow, dangleVec, entry,
      List.range_succ, List.replicate_succ]
  refine ⟨heval.1.trans heval.2.symm, hit1.1, hit0.1, hit1.2, hit0.2, ?_⟩
  rintro ⟨g, h1, h2⟩
  rw [heval.1, hit1.1] at h1
  rw [heval.2, hit0.1] at h2
  rw [h1] at h2
  exact absurd h2 (by norm_num)

section FrameEffect

/-- A store of matrix objects; references are indices into the store.
Models Python object identity for the mutation discipline of
`centrality_scores`. -/
abbrev Store := List Mat

/-- Dereference a matrix object. -/
def readM (st : Store) (r : Nat) : Mat := st.getD r []

/-- State-passing embedding of the effect of `centrality_scores` on the
caller's matrix object: `X = X.copy()` allocates a fresh object at the
end of the store, and the in-place row-rescaling loop then mutates only
that new object. Returns the final store and the score vector. -/
def centrality_scores_st (st : Store) (xref : Nat) (alpha : ℚ)
    (max_iter : Nat) (tol : ℚ) : Store × List ℚ :=
  let st1 := st ++ [readM st xref]
  let st2 := st1.set st.length (normalizeX (readM st1 st.length))
  (st2, powerLoop (readM st2 st.length).length (readM st2 st.length) alpha tol
    (dangleVec (readM st2 st.length).length (readM st2 st.length)) max_iter
    (List.replicate (readM st2 st.length).length
      (1 / ((readM st2 st.length).length : ℚ))))

theorem set_append_length {γ : Type} (l : List γ) (a b : γ) :
    (l ++ [a]).set l.length b = l ++ [b] := by
  induction l with
  | nil => rfl
  | cons x t ih => simp [ih]

theorem readM_append_self (st : Store) (v : Mat) :
    readM (st ++ [v]) st.length = v := by
  rw [readM, List.getD_append_right _ _ _ _ (le_refl _)]
  simp

theorem centrality_scores_st_eq (st : Store) (xref : Nat) (alpha : ℚ)
    (max_iter : Nat) (tol : ℚ) :
    centrality_scores_st st xref alpha max_iter tol
      = (st ++ [normalizeX (readM st xref)],
          centrality_scores (readM st xref) alpha max_iter tol) := by
  have h1 : readM (st ++ [readM st xref]) st.length = readM st xref :=
    readM_append_self st _
  have h2 : (st ++ [readM st xref]).set st.length
      (normalizeX (readM st xref)) = st ++ [normalizeX (readM st xref)] :=
    set_append_length st _ _
  simp only [centrality_scores_st, h1, h2, readM_append_self,
    centrality_scores, normalizeX_length]

end FrameEffect

/-- Claim C9: `centrality_scores` leaves the caller's matrix unchanged:
the call copies the matrix first (`X = X.copy()`), the row-rescaling is
applied only to that private working copy (which ends up holding the
normalized matrix), and the caller's original object still holds the
raw un-normalized cells afterwards; the returned scores are those of the
pure computation on the original values. -/
theorem C9_caller_matrix_unchanged (st : Store) (xref : Nat)
    (alpha tol : ℚ) (max_iter : Nat) (hr : xref < st.length) :
    readM (centrality_scores_st st xref alpha max_iter tol).1 xref
        = readM st xref
    ∧ readM (centrality_scores_st st xref alpha max_iter tol).1 st.length
        = normalizeX (readM st xref)
    ∧ (centrality_scores_st st xref alpha max_iter tol).2
        = centrality_scores (readM st xref) alpha max_iter tol := by
  rw [centrality_scores_st_eq]
  refine ⟨?_, readM_append_self st _, rfl⟩
  rw [readM, readM, List.getD_append _ _ _ _ hr]

/-- Witness for C9: a one-object store holding [[1]]; after the call the
caller's slot still holds [[1]], the private copy holds the normalized
matrix, and the returned vector is the pure result. -/
theorem C9_caller_matrix_unchanged_witness :
    readM (centrality_scores_st [[[1]]] 0 (1 / 2) 5 1).1 0 = readM [[[1]]] 0
    ∧ readM (centrality_scores_st [[[1]]] 0 (1 / 2) 5 1).1
          ([[[1]]] : Store).length
        = normalizeX (readM [[[1]]] 0)
    ∧ (centrality_scores_st [[[1]]] 0 (1 / 2) 5 1).2
        = centrality_scores (readM [[[1]]] 0) (1 / 2) 5 1 :=
  C9_caller_matrix_unchanged [[[1]]] 0 (1 / 2) 1 5 (by norm_num)

end WikipediaPrincipal
